import Mathlib

/-!
Shallow embedding of the ray tracer in `src/main.rs`.

Scalars: Rust `f64` values are modelled as exact rationals (`ℚ`); the claims
under study are structural (branch selection, recursion shape, interval
scanning, averaging, byte clamping), none of which depends on rounding of
individual `f64` operations.  The saturating Rust cast `as u8` is modelled
exactly (truncation toward zero, clamped into `[0, 255]`).

Only `main.rs` is present in the sources.  The modules it uses
(`vec3`, `ray`, `image`, `hittable`, `camera`, `material`) are absent, so the
corresponding definitions below are modelled from the spec and are marked as
such in their doc comments.  `trace_ray`, the scan loop inside it, and the
driver pipeline are translated directly from `main.rs`.
-/

/-- Modelled from the spec (the `vec3` module is absent from the sources):
three rational components, used as point, direction and color. -/
structure Vec3 where
  x : ℚ
  y : ℚ
  z : ℚ
  deriving DecidableEq

/-- Modelled from the spec: component-wise vector addition. -/
def Vec3.add (a b : Vec3) : Vec3 := ⟨a.x + b.x, a.y + b.y, a.z + b.z⟩

/-- Modelled from the spec: component-wise vector subtraction. -/
def Vec3.sub (a b : Vec3) : Vec3 := ⟨a.x - b.x, a.y - b.y, a.z - b.z⟩

/-- Modelled from the spec: scalar multiplication. -/
def Vec3.mul (v : Vec3) (s : ℚ) : Vec3 := ⟨v.x * s, v.y * s, v.z * s⟩

/-- Modelled from the spec: scalar division. -/
def Vec3.div (v : Vec3) (s : ℚ) : Vec3 := ⟨v.x / s, v.y / s, v.z / s⟩

/-- Modelled from the spec: a component-wise map; the spec's element-wise
square root is this map applied to a square-root function. -/
def Vec3.mapF (f : ℚ → ℚ) (v : Vec3) : Vec3 := ⟨f v.x, f v.y, f v.z⟩

/-- Modelled from the spec (the `ray` module is absent): origin plus
direction. -/
structure Ray where
  origin : Vec3
  direction : Vec3
  deriving DecidableEq

/-- Modelled from the spec (the `image` module is absent): an RGB pixel with
byte channels; the byte range is maintained by the conversions below. -/
structure Pixel where
  r : ℕ
  g : ℕ
  b : ℕ
  deriving DecidableEq

/-- Modelled from the spec: the all-zero black pixel. -/
def Pixel.black : Pixel := ⟨0, 0, 0⟩

/-- Modelled from the spec: pixel constructor from byte channels. -/
def Pixel.new (r g b : ℕ) : Pixel := ⟨r, g, b⟩

/-- The Rust cast `f64 as u8` used throughout `main.rs`: it truncates toward
zero and saturates into `[0, 255]` (negative values give `0`). -/
def f64_as_u8 (q : ℚ) : ℕ := min (Int.toNat ⌊q⌋) 255

/-- Modelled from the spec: conversion of a color vector to a pixel, each
channel clamped/truncated to the byte range. -/
def Pixel.from_vec3 (v : Vec3) : Pixel :=
  ⟨f64_as_u8 v.x, f64_as_u8 v.y, f64_as_u8 v.z⟩

/-- Modelled from the spec (the `hittable` module is absent): an intersection
record with hit point, oriented unit normal, ray parameter `t` and the
identifier of the owning material. -/
structure HitRecord where
  point : Vec3
  normal : Vec3
  t : ℚ
  matId : ℕ
  deriving DecidableEq

/-- Modelled from the spec (the `material` module is absent): a material is
its `scatter` capability, producing an attenuation and a scattered ray, or
`none` for absorption.  The trait-object dispatch of `main.rs` is modelled by
an environment `ℕ → Material` indexed by `HitRecord.matId`. -/
def Material : Type := Ray → HitRecord → Option (Vec3 × Ray)

/-- Modelled from the spec (the `hittable` module is absent): a hittable is
its `hit` capability, taking the ray, `t_min : ℚ` and `t_max` (where `none`
stands for the initial `f64::INFINITY` of `main.rs`). -/
def Hittable : Type := Ray → ℚ → Option ℚ → Option HitRecord

/-- Strict comparison against the upper interval bound, where `none` is
`+infinity`. -/
def t_below (t : ℚ) : Option ℚ → Bool
  | none => true
  | some m => decide (t < m)

/-- Modelled from the spec, section 4.3: a candidate root is accepted exactly
when it lies in the open interval `(t_min, t_max)`. -/
def validRoot (tmin : ℚ) (tmax : Option ℚ) (rc : HitRecord) : Bool :=
  decide (tmin < rc.t) && t_below rc.t tmax

/-- Keep the candidate with the smaller parameter, preferring the earlier one
on ties. -/
def bestOf (acc : Option HitRecord) (rc : HitRecord) : Option HitRecord :=
  match acc with
  | none => some rc
  | some b => if rc.t < b.t then some rc else some b

/-- Modelled from the spec, section 4.3: given the records of all
intersections of one object with the queried ray, `hit` returns the record
with the smallest parameter inside the open interval, or `none`. -/
def hitRoots (rs : List HitRecord) (tmin : ℚ) (tmax : Option ℚ) :
    Option HitRecord :=
  (rs.filter (validRoot tmin tmax)).foldl bestOf none

/-- Modelled from the spec: the hittable determined by a fixed list of
intersection records along the queried ray. -/
def hittableOfRoots (rs : List HitRecord) : Hittable :=
  fun _r tmin tmax => hitRoots rs tmin tmax

/-- The nearest-hit scan of `trace_ray` (`main.rs` lines 22-32): iterate over
the objects, shrinking the upper bound `t_closest_so_far` (initially
`f64::INFINITY`, modelled as `none`) to each accepted hit's `t`, and keep the
last accepted record. -/
def scanLoop (r : Ray) :
    List Hittable → Option ℚ → Option HitRecord → Option ℚ × Option HitRecord
  | [], t_closest_so_far, rc => (t_closest_so_far, rc)
  | obj :: rest, t_closest_so_far, rc =>
    match obj r (1/1000) t_closest_so_far with
    | some temp_rec => scanLoop r rest (some temp_rec.t) (some temp_rec)
    | none => scanLoop r rest t_closest_so_far rc

/-- `trace_ray` from `main.rs` lines 16-58: at depth `0` return black;
otherwise scan the world for the nearest hit with `t_min = 0.001` and
`t_max = +infinity`; on a hit, ask the record's material to scatter, and
either recurse at `depth - 1` and attenuate, or return black on absorption;
on a miss, return the sky gradient from the ray direction's y component. -/
def trace_ray (mats : ℕ → Material) (world : List Hittable) :
    Ray → ℕ → Pixel
  | _, 0 => Pixel.black
  | r, max_depth + 1 =>
    match (scanLoop r world none none).2 with
    | some final_rec =>
      match mats final_rec.matId r final_rec with
      | some (attenuation, new_ray) =>
        let pixel := trace_ray mats world new_ray max_depth
        Pixel.new
          (f64_as_u8 (attenuation.x * (pixel.r : ℚ)))
          (f64_as_u8 (attenuation.y * (pixel.g : ℚ)))
          (f64_as_u8 (attenuation.z * (pixel.b : ℚ)))
      | none => Pixel.black
    | none =>
      let w := (1/2 : ℚ) * (r.direction.y + 1)
      let white : Vec3 := ⟨1, 1, 1⟩
      let blue : Vec3 := ⟨1/2, 7/10, 1⟩
      let color := (white.mul (1 - w)).add (blue.mul w)
      Pixel.new
        (f64_as_u8 (color.x * 255))
        (f64_as_u8 (color.y * 255))
        (f64_as_u8 (color.z * 255))

/-- The body of one `trace_ray` step, with the single recursive call
abstracted into `recur`; used to state that the recursion of `trace_ray` is
well founded on the depth counter. -/
def trace_body (recur : Ray → Pixel) (mats : ℕ → Material)
    (world : List Hittable) (r : Ray) : Pixel :=
  match (scanLoop r world none none).2 with
  | some final_rec =>
    match mats final_rec.matId r final_rec with
    | some (attenuation, new_ray) =>
      let pixel := recur new_ray
      Pixel.new
        (f64_as_u8 (attenuation.x * (pixel.r : ℚ)))
        (f64_as_u8 (attenuation.y * (pixel.g : ℚ)))
        (f64_as_u8 (attenuation.z * (pixel.b : ℚ)))
    | none => Pixel.black
  | none =>
    let w := (1/2 : ℚ) * (r.direction.y + 1)
    let white : Vec3 := ⟨1, 1, 1⟩
    let blue : Vec3 := ⟨1/2, 7/10, 1⟩
    let color := (white.mul (1 - w)).add (blue.mul w)
    Pixel.new
      (f64_as_u8 (color.x * 255))
      (f64_as_u8 (color.y * 255))
      (f64_as_u8 (color.z * 255))

/-- The compile-time constant `ASPECT_RATIO = 16.0/9.0` of `main` (renamed to
lower case). -/
def aspect_ratio : ℚ := 16/9

/-- The compile-time constant `IMG_HEIGHT = 400` of `main`. -/
def IMG_HEIGHT : ℕ := 400

/-- `IMG_WIDTH = (IMG_HEIGHT as f64 * ASPECT_RATIO) as usize` of `main`:
the truncating float-to-integer cast is modelled by the floor. -/
def IMG_WIDTH : ℕ := Int.toNat ⌊(IMG_HEIGHT : ℚ) * aspect_ratio⌋

/-- The compile-time constant `SAMPLES_PER_PIXEL = 100` of `main`. -/
def SAMPLES_PER_PIXEL : ℕ := 100

/-- The compile-time constant `MAX_DEPTH = 50` of `main`. -/
def MAX_DEPTH : ℕ := 50

/-- Modelled from the spec (the `camera` module is absent): a pinhole camera
with precomputed viewport extent vectors and lower-left corner. -/
structure Camera where
  origin : Vec3
  horizontal : Vec3
  vertical : Vec3
  lower_left : Vec3

/-- Modelled from the spec, section 4.6: construct the camera from origin,
viewport height, viewport width and focal length, precomputing the horizontal
and vertical extent vectors and the lower-left viewport corner. -/
def Camera.new (origin : Vec3) (vp_height vp_width focal_length : ℚ) :
    Camera :=
  let horizontal : Vec3 := ⟨vp_width, 0, 0⟩
  let vertical : Vec3 := ⟨0, vp_height, 0⟩
  { origin := origin
    horizontal := horizontal
    vertical := vertical
    lower_left :=
      ((origin.sub (horizontal.div 2)).sub (vertical.div 2)).sub
        ⟨0, 0, focal_length⟩ }

/-- Modelled from the spec, section 4.6: `get_ray(u, v)` returns the ray from
the camera origin through `lower_left + u*horizontal + v*vertical`. -/
def Camera.get_ray (c : Camera) (u v : ℚ) : Ray :=
  { origin := c.origin
    direction :=
      ((c.lower_left.add (c.horizontal.mul u)).add (c.vertical.mul v)).sub
        c.origin }

/-- The jittered sample coordinates of the driver (`main.rs` line 119):
`u = (x + r)/(IMG_WIDTH - 1)` and `v = (y + r)/(IMG_HEIGHT - 1)` for a random
draw `r`. -/
def sampleUV (x y : ℕ) (rv : ℚ) : ℚ × ℚ :=
  (((x : ℚ) + rv) / ((IMG_WIDTH : ℚ) - 1),
   ((y : ℚ) + rv) / ((IMG_HEIGHT : ℚ) - 1))

/-- The per-pixel sampling pipeline of the driver (`main.rs` lines 117-125),
with the random draws made explicit as the list `rands` (the code takes
`SAMPLES_PER_PIXEL` draws from `fastrand::f64()`) and the component-wise
`f64::sqrt` of the absent `vec3` module abstracted as `sqrtF`: trace one
camera ray per draw, fold the resulting colors, divide by
`SAMPLES_PER_PIXEL`, gamma-correct with `sqrt(color/255) * 256`, and convert
to a pixel. -/
def renderPixel (sqrtF : ℚ → ℚ) (mats : ℕ → Material) (world : List Hittable)
    (cam : Camera) (x y : ℕ) (rands : List ℚ) : Pixel :=
  let avg_sample :=
    (((((rands.map (fun rv => sampleUV x y rv)).map
        (fun uv => cam.get_ray uv.1 uv.2)).map
        (fun ray => trace_ray mats world ray MAX_DEPTH)).map
        (fun pixel => (⟨(pixel.r : ℚ), (pixel.g : ℚ), (pixel.b : ℚ)⟩ : Vec3))).foldl
        Vec3.add ⟨0, 0, 0⟩).div (SAMPLES_PER_PIXEL : ℚ)
  let corrected := ((avg_sample.div 255).mapF sqrtF).mul 256
  Pixel.from_vec3 corrected

/-- Modelled from the spec (the `image` module is absent): an image is a grid
of pixels with coordinate-indexed access, modelled as a function from
`(column, row)`. -/
def Image : Type := ℕ → ℕ → Pixel

/-- Modelled from the spec: a freshly constructed image (initial contents
irrelevant to the claims; black here). -/
def Image.new : Image := fun _ _ => Pixel.black

/-- Modelled from the spec: coordinate-indexed write access. -/
def Image.insert_pixel_at (img : Image) (x y : ℕ) (p : Pixel) : Image :=
  fun x' y' => if x' = x ∧ y' = y then p else img x' y'

/-- Modelled from the spec: coordinate-indexed read access. -/
def Image.get (img : Image) (x y : ℕ) : Pixel := img x y

/-- The inner column loop of the driver (`main.rs` lines 116-127): write the
pixel computed for loop coordinates `(x, y)` at `(x, row)` for every
`x < w`. -/
def writeRow (computePixel : ℕ → ℕ → Pixel) (w row y : ℕ) (img : Image) :
    Image :=
  (List.range w).foldl
    (fun im x => im.insert_pixel_at x row (computePixel x y)) img

/-- The driver's double loop (`main.rs` lines 115-128), with the dimensions
and the per-pixel computation abstracted (in `main` they are `IMG_HEIGHT`,
`IMG_WIDTH` and the sampling pipeline of `renderPixel`): for each `y < h` the
computed row is written at row `h - y - 1`, the y-flip of
`image.insert_pixel_at(x, image.height() - y - 1, ...)`. -/
def renderImage (h w : ℕ) (computePixel : ℕ → ℕ → Pixel) : Image :=
  (List.range h).foldl
    (fun img y => writeRow computePixel w (h - y - 1) y img) Image.new

/-- The spec-side sum of a list of color vectors. -/
def vecSum (l : List Vec3) : Vec3 := l.foldr Vec3.add ⟨0, 0, 0⟩

/-- The spec-side description of the traced sample colors of one pixel: for
each random draw, the color returned by tracing the jittered camera ray at
`MAX_DEPTH`, as a vector. -/
def sampleColors (mats : ℕ → Material) (world : List Hittable) (cam : Camera)
    (x y : ℕ) (rands : List ℚ) : List Vec3 :=
  rands.map (fun rv =>
    let uv := sampleUV x y rv
    let pixel := trace_ray mats world (cam.get_ray uv.1 uv.2) MAX_DEPTH
    (⟨(pixel.r : ℚ), (pixel.g : ℚ), (pixel.b : ℚ)⟩ : Vec3))


/-- A concrete ray used by the concrete instantiations below. -/
def ray0 : Ray := ⟨⟨0, 0, 0⟩, ⟨0, 0, -1⟩⟩

/-- A concrete hit record with parameter `t = 1` and material `0`. -/
def recT1a : HitRecord := ⟨⟨0, 0, -1⟩, ⟨0, 0, 1⟩, 1, 0⟩

/-- A concrete hit record with the same parameter `t = 1` but material `1`. -/
def recT1b : HitRecord := ⟨⟨0, 0, -1⟩, ⟨0, 0, 1⟩, 1, 1⟩

/-- A concrete hit record with parameter `t = 2`. -/
def recT2 : HitRecord := ⟨⟨0, 0, -2⟩, ⟨0, 0, 1⟩, 2, 0⟩

/-- A material environment in which every material absorbs. -/
def mats0 : ℕ → Material := fun _ => fun _ _ => none

/-- A material environment in which every material scatters with attenuation
`(1/2, 1/2, 1/2)` and scattered ray `ray0`. -/
def matsS : ℕ → Material := fun _ => fun _ _ => some (⟨1/2, 1/2, 1/2⟩, ray0)

/-- A concrete one-object world whose object has a single root at `t = 1`. -/
def world1 : List Hittable := [hittableOfRoots [recT1a]]

/-- Every saturating byte cast lands at or below `255`. -/
theorem f64_as_u8_le_255 (q : ℚ) : f64_as_u8 q ≤ 255 :=
  min_le_right _ _

/-- C3: for every material environment, every world and every ray,
`trace_ray` at depth `0` returns pure black; the result does not depend on
the world or the materials, so neither the scene nor any material is
queried. -/
theorem trace_ray_depth_zero_black (mats : ℕ → Material)
    (world : List Hittable) (r : Ray) :
    trace_ray mats world r 0 = Pixel.black := rfl

/-- C5: the recursion of `trace_ray` is well founded on the depth counter:
depth `0` returns black without recursing, and the step at depth `d + 1`
equals the non-recursive body `trace_body` whose single recursive occurrence
is `trace_ray` at depth `d` — the depth strictly decreases on the one
recursive call, so `trace_ray` terminates for every ray, world and initial
depth (its totality is certified by this structural recursion). -/
theorem trace_ray_depth_recursion (mats : ℕ → Material)
    (world : List Hittable) (r : Ray) (d : ℕ) :
    trace_ray mats world r 0 = Pixel.black ∧
    trace_ray mats world r (d + 1) =
      trace_body (fun new_ray => trace_ray mats world new_ray d) mats world
        r :=
  ⟨rfl, rfl⟩

/-- C10: `trace_ray` is total (it is a total function of this development,
defined for every input) and, for every material environment, world, ray —
including rays whose direction y component lies outside `[-1, 1]` — and
depth, every channel of the returned pixel lies in `[0, 255]`: each
float-to-byte conversion saturates via `f64_as_u8`. -/
theorem trace_ray_channels_bounded (mats : ℕ → Material)
    (world : List Hittable) (r : Ray) (d : ℕ) :
    (trace_ray mats world r d).r ≤ 255 ∧
    (trace_ray mats world r d).g ≤ 255 ∧
    (trace_ray mats world r d).b ≤ 255 := by
  cases d with
  | zero => exact ⟨Nat.zero_le _, Nat.zero_le _, Nat.zero_le _⟩
  | succ d =>
    rw [show trace_ray mats world r (d + 1) =
      trace_body (fun new_ray => trace_ray mats world new_ray d) mats world r
      from rfl]
    unfold trace_body
    cases (scanLoop r world none none).2 with
    | none => exact ⟨f64_as_u8_le_255 _, f64_as_u8_le_255 _, f64_as_u8_le_255 _⟩
    | some final_rec =>
      dsimp only
      cases mats final_rec.matId r final_rec with
      | none => exact ⟨Nat.zero_le _, Nat.zero_le _, Nat.zero_le _⟩
      | some pair =>
        exact ⟨f64_as_u8_le_255 _, f64_as_u8_le_255 _, f64_as_u8_le_255 _⟩

/-- C1: for every ray, world and depth at least `1` (written `d + 1`), when
the nearest-hit scan finds a record whose material scatters, `trace_ray`
returns the component-wise product of the attenuation with the recursively
traced color of the scattered ray at depth `d`, each channel truncated back
into a byte by the `as u8` cast of `main.rs`; when the material declares
absorption (`scatter` returns `none`), `trace_ray` returns pure black. -/
theorem trace_ray_scatter_branch (mats : ℕ → Material)
    (world : List Hittable) (r : Ray) (d : ℕ) (final_rec : HitRecord)
    (hscan : (scanLoop r world none none).2 = some final_rec) :
    (∀ attenuation new_ray,
      mats final_rec.matId r final_rec = some (attenuation, new_ray) →
      trace_ray mats world r (d + 1) =
        Pixel.new
          (f64_as_u8 (attenuation.x * ((trace_ray mats world new_ray d).r : ℚ)))
          (f64_as_u8 (attenuation.y * ((trace_ray mats world new_ray d).g : ℚ)))
          (f64_as_u8 (attenuation.z * ((trace_ray mats world new_ray d).b : ℚ)))) ∧
    (mats final_rec.matId r final_rec = none →
      trace_ray mats world r (d + 1) = Pixel.black) := by
  rw [show trace_ray mats world r (d + 1) =
    trace_body (fun new_ray => trace_ray mats world new_ray d) mats world r
    from rfl]
  unfold trace_body
  rw [hscan]
  dsimp only
  constructor
  · intro attenuation new_ray hscatter
    rw [hscatter]
  · intro hscatter
    rw [hscatter]

/-- Witness for C1 at a concrete input: a one-object world hit at `t = 1`
whose material scatters with attenuation `(1/2, 1/2, 1/2)`; the recursive
call lands in the depth-0 base case, so the product with black is black. -/
theorem trace_ray_scatter_branch_witness :
    (scanLoop ray0 world1 none none).2 = some recT1a ∧
    ((∀ attenuation new_ray,
      matsS recT1a.matId ray0 recT1a = some (attenuation, new_ray) →
      trace_ray matsS world1 ray0 (0 + 1) =
        Pixel.new
          (f64_as_u8 (attenuation.x * ((trace_ray matsS world1 new_ray 0).r : ℚ)))
          (f64_as_u8 (attenuation.y * ((trace_ray matsS world1 new_ray 0).g : ℚ)))
          (f64_as_u8 (attenuation.z * ((trace_ray matsS world1 new_ray 0).b : ℚ)))) ∧
    (matsS recT1a.matId ray0 recT1a = none →
      trace_ray matsS world1 ray0 (0 + 1) = Pixel.black)) := by
  have hscan : (scanLoop ray0 world1 none none).2 = some recT1a := by
    norm_num [scanLoop, world1, hittableOfRoots, hitRoots, List.filter,
      validRoot, t_below, recT1a, bestOf]
  exact ⟨hscan, trace_ray_scatter_branch matsS world1 ray0 0 recT1a hscan⟩

/-- The byte cast of a product with a factor in `[0, 1]` never exceeds the
other (byte) factor. -/
theorem f64_as_u8_mul_le (a : ℚ) (n : ℕ) (h1 : a ≤ 1) :
    f64_as_u8 (a * (n : ℚ)) ≤ n := by
  have hle : a * (n : ℚ) ≤ (n : ℚ) := by
    have := mul_le_mul_of_nonneg_right h1 (by positivity : (0 : ℚ) ≤ (n : ℚ))
    simpa using this
  have hfloor : ⌊a * (n : ℚ)⌋ ≤ (n : ℤ) := by
    have := Int.floor_le_floor hle
    simpa using this
  calc f64_as_u8 (a * (n : ℚ)) ≤ Int.toNat ⌊a * (n : ℚ)⌋ := min_le_left _ _
    _ ≤ n := by omega

/-- C9: when every component of the attenuation lies in `[0, 1]`, each
channel of the pixel returned by the scatter branch of `trace_ray` is at most
the corresponding channel of the recursively traced pixel: the per-channel
product is truncated toward zero into a byte by `f64_as_u8`, so attenuation
never brightens any channel. -/
theorem trace_ray_attenuation_monotone (mats : ℕ → Material)
    (world : List Hittable) (r : Ray) (d : ℕ) (final_rec : HitRecord)
    (attenuation : Vec3) (new_ray : Ray)
    (hscan : (scanLoop r world none none).2 = some final_rec)
    (hscatter : mats final_rec.matId r final_rec = some (attenuation, new_ray))
    (_hx0 : 0 ≤ attenuation.x) (hx1 : attenuation.x ≤ 1)
    (_hy0 : 0 ≤ attenuation.y) (hy1 : attenuation.y ≤ 1)
    (_hz0 : 0 ≤ attenuation.z) (hz1 : attenuation.z ≤ 1) :
    (trace_ray mats world r (d + 1)).r ≤ (trace_ray mats world new_ray d).r ∧
    (trace_ray mats world r (d + 1)).g ≤ (trace_ray mats world new_ray d).g ∧
    (trace_ray mats world r (d + 1)).b ≤ (trace_ray mats world new_ray d).b := by
  have h := (trace_ray_scatter_branch mats world r d final_rec hscan).1
    attenuation new_ray hscatter
  rw [h]
  exact ⟨f64_as_u8_mul_le _ _ hx1, f64_as_u8_mul_le _ _ hy1,
    f64_as_u8_mul_le _ _ hz1⟩

/-- Witness for C9 at a concrete input: attenuation `(1/2, 1/2, 1/2)` on a
hit at `t = 1`; the recursive call returns black and the attenuated pixel is
again black, hence channel-wise at most the recursive result. -/
theorem trace_ray_attenuation_monotone_witness :
    (scanLoop ray0 world1 none none).2 = some recT1a ∧
    matsS recT1a.matId ray0 recT1a =
      some ((⟨1/2, 1/2, 1/2⟩ : Vec3), ray0) ∧
    (0 ≤ (⟨1/2, 1/2, 1/2⟩ : Vec3).x ∧ (⟨1/2, 1/2, 1/2⟩ : Vec3).x ≤ 1) ∧
    ((trace_ray matsS world1 ray0 (0 + 1)).r ≤
        (trace_ray matsS world1 ray0 0).r ∧
      (trace_ray matsS world1 ray0 (0 + 1)).g ≤
        (trace_ray matsS world1 ray0 0).g ∧
      (trace_ray matsS world1 ray0 (0 + 1)).b ≤
        (trace_ray matsS world1 ray0 0).b) := by
  have hscan : (scanLoop ray0 world1 none none).2 = some recT1a := by
    norm_num [scanLoop, world1, hittableOfRoots, hitRoots, List.filter,
      validRoot, t_below, recT1a, bestOf]
  refine ⟨hscan, rfl, by norm_num, ?_⟩
  exact trace_ray_attenuation_monotone matsS world1 ray0 0 recT1a
    (⟨1/2, 1/2, 1/2⟩ : Vec3) ray0 hscan rfl (by norm_num) (by norm_num)
    (by norm_num) (by norm_num) (by norm_num) (by norm_num)

/-- Evaluation helper for the saturating byte cast at a value with a known
floor inside the byte range. -/
theorem f64_as_u8_eq_of (q : ℚ) (n : ℕ) (h1 : (n : ℚ) ≤ q)
    (h2 : q < (n : ℚ) + 1) (h3 : n ≤ 255) : f64_as_u8 q = n := by
  have hfloor : ⌊q⌋ = (n : ℤ) := by
    rw [Int.floor_eq_iff]
    exact ⟨by exact_mod_cast h1, by exact_mod_cast h2⟩
  simp only [f64_as_u8, hfloor]
  omega

/-- C4: against the empty scene, `trace_ray` at depth at least `1` returns
the sky gradient `lerp(white, (0.5, 0.7, 1.0), w)` with
`w = (direction.y + 1)/2`, scaled by `255` and truncated to bytes; at
`direction.y = -1` this is pure white `(255, 255, 255)`, and at
`direction.y = 1` it is `(0.5, 0.7, 1.0) * 255` truncated to bytes,
`(127, 178, 255)`.  The unit-length hypothesis of the claim is carried
although the code never normalizes. -/
theorem trace_ray_empty_scene_sky (mats : ℕ → Material) (r : Ray) (d : ℕ)
    (_hunit : r.direction.x * r.direction.x +
      r.direction.y * r.direction.y +
      r.direction.z * r.direction.z = 1) :
    trace_ray mats [] r (d + 1) =
      Pixel.new
        (f64_as_u8 ((1 * (1 - 1/2 * (r.direction.y + 1)) +
          1/2 * (1/2 * (r.direction.y + 1))) * 255))
        (f64_as_u8 ((1 * (1 - 1/2 * (r.direction.y + 1)) +
          7/10 * (1/2 * (r.direction.y + 1))) * 255))
        (f64_as_u8 ((1 * (1 - 1/2 * (r.direction.y + 1)) +
          1 * (1/2 * (r.direction.y + 1))) * 255)) ∧
    (r.direction.y = -1 → trace_ray mats [] r (d + 1) = Pixel.new 255 255 255) ∧
    (r.direction.y = 1 → trace_ray mats [] r (d + 1) = Pixel.new 127 178 255) := by
  have hmain : trace_ray mats [] r (d + 1) =
      Pixel.new
        (f64_as_u8 ((1 * (1 - 1/2 * (r.direction.y + 1)) +
          1/2 * (1/2 * (r.direction.y + 1))) * 255))
        (f64_as_u8 ((1 * (1 - 1/2 * (r.direction.y + 1)) +
          7/10 * (1/2 * (r.direction.y + 1))) * 255))
        (f64_as_u8 ((1 * (1 - 1/2 * (r.direction.y + 1)) +
          1 * (1/2 * (r.direction.y + 1))) * 255)) := rfl
  refine ⟨hmain, fun hy => ?_, fun hy => ?_⟩
  · rw [hmain, hy]
    have e1 : f64_as_u8 ((1 * (1 - 1/2 * ((-1 : ℚ) + 1)) +
        1/2 * (1/2 * ((-1 : ℚ) + 1))) * 255) = 255 :=
      f64_as_u8_eq_of _ 255 (by norm_num) (by norm_num) (by norm_num)
    have e2 : f64_as_u8 ((1 * (1 - 1/2 * ((-1 : ℚ) + 1)) +
        7/10 * (1/2 * ((-1 : ℚ) + 1))) * 255) = 255 :=
      f64_as_u8_eq_of _ 255 (by norm_num) (by norm_num) (by norm_num)
    have e3 : f64_as_u8 ((1 * (1 - 1/2 * ((-1 : ℚ) + 1)) +
        1 * (1/2 * ((-1 : ℚ) + 1))) * 255) = 255 :=
      f64_as_u8_eq_of _ 255 (by norm_num) (by norm_num) (by norm_num)
    rw [e1, e2, e3]
  · rw [hmain, hy]
    have e1 : f64_as_u8 ((1 * (1 - 1/2 * ((1 : ℚ) + 1)) +
        1/2 * (1/2 * ((1 : ℚ) + 1))) * 255) = 127 :=
      f64_as_u8_eq_of _ 127 (by norm_num) (by norm_num) (by norm_num)
    have e2 : f64_as_u8 ((1 * (1 - 1/2 * ((1 : ℚ) + 1)) +
        7/10 * (1/2 * ((1 : ℚ) + 1))) * 255) = 178 :=
      f64_as_u8_eq_of _ 178 (by norm_num) (by norm_num) (by norm_num)
    have e3 : f64_as_u8 ((1 * (1 - 1/2 * ((1 : ℚ) + 1)) +
        1 * (1/2 * ((1 : ℚ) + 1))) * 255) = 255 :=
      f64_as_u8_eq_of _ 255 (by norm_num) (by norm_num) (by norm_num)
    rw [e1, e2, e3]

/-- A concrete unit-length ray pointing straight up. -/
def rayUp : Ray := ⟨⟨0, 0, 0⟩, ⟨0, 1, 0⟩⟩

/-- Witness for C4 at a concrete input: the upward unit ray against the empty
scene at depth `1`. -/
theorem trace_ray_empty_scene_sky_witness :
    (rayUp.direction.x * rayUp.direction.x +
      rayUp.direction.y * rayUp.direction.y +
      rayUp.direction.z * rayUp.direction.z = 1) ∧
    (trace_ray mats0 [] rayUp (0 + 1) =
      Pixel.new
        (f64_as_u8 ((1 * (1 - 1/2 * (rayUp.direction.y + 1)) +
          1/2 * (1/2 * (rayUp.direction.y + 1))) * 255))
        (f64_as_u8 ((1 * (1 - 1/2 * (rayUp.direction.y + 1)) +
          7/10 * (1/2 * (rayUp.direction.y + 1))) * 255))
        (f64_as_u8 ((1 * (1 - 1/2 * (rayUp.direction.y + 1)) +
          1 * (1/2 * (rayUp.direction.y + 1))) * 255)) ∧
      (rayUp.direction.y = -1 →
        trace_ray mats0 [] rayUp (0 + 1) = Pixel.new 255 255 255) ∧
      (rayUp.direction.y = 1 →
        trace_ray mats0 [] rayUp (0 + 1) = Pixel.new 127 178 255)) :=
  ⟨by norm_num [rayUp],
    trace_ray_empty_scene_sky mats0 rayUp 0 (by norm_num [rayUp])⟩

/-- The derived image width of `main` evaluates to `711`. -/
theorem IMG_WIDTH_eq : IMG_WIDTH = 711 := by
  have hfloor : ⌊(IMG_HEIGHT : ℚ) * aspect_ratio⌋ = 711 := by
    rw [Int.floor_eq_iff]
    constructor <;> norm_num [IMG_HEIGHT, aspect_ratio]
  rw [IMG_WIDTH, hfloor]
  rfl

/-- C7 counterexample: the claim that both sample coordinates lie in `[0, 1]`
fails at the last pixel column: for `x = 710 < IMG_WIDTH`, `y = 0` and the
random draw `1/2 ∈ [0, 1)`, the computed `u` exceeds `1`. -/
theorem sampleUV_exceeds_one_counterexample :
    710 < IMG_WIDTH ∧ 0 < IMG_HEIGHT ∧ (0 : ℚ) ≤ 1/2 ∧ (1/2 : ℚ) < 1 ∧
    1 < (sampleUV 710 0 (1/2)).1 := by
  refine ⟨by rw [IMG_WIDTH_eq]; omega, by rw [IMG_HEIGHT]; omega,
    by norm_num, by norm_num, ?_⟩
  rw [sampleUV, IMG_WIDTH_eq]
  norm_num

/-- C7 amended: for every loop coordinate `(x, y)` of the driver and random
draw `rv ∈ [0, 1)`, the sample coordinates are nonnegative and bounded by
`width/(width-1)` resp. `height/(height-1)`; they lie in `[0, 1]` for every
column except the last (`x + 1 < IMG_WIDTH`) and every row except the last
(`y + 1 < IMG_HEIGHT`), but on the last column or row they may exceed `1`. -/
theorem sampleUV_bounds (x y : ℕ) (rv : ℚ) (hx : x < IMG_WIDTH)
    (hy : y < IMG_HEIGHT) (h0 : 0 ≤ rv) (h1 : rv < 1) :
    0 ≤ (sampleUV x y rv).1 ∧
    (sampleUV x y rv).1 < (IMG_WIDTH : ℚ) / ((IMG_WIDTH : ℚ) - 1) ∧
    (x + 1 < IMG_WIDTH → (sampleUV x y rv).1 ≤ 1) ∧
    0 ≤ (sampleUV x y rv).2 ∧
    (sampleUV x y rv).2 < (IMG_HEIGHT : ℚ) / ((IMG_HEIGHT : ℚ) - 1) ∧
    (y + 1 < IMG_HEIGHT → (sampleUV x y rv).2 ≤ 1) := by
  rw [IMG_WIDTH_eq] at hx ⊢
  rw [IMG_HEIGHT] at hy ⊢
  rw [sampleUV, IMG_WIDTH_eq, IMG_HEIGHT]
  have hxq : (x : ℚ) ≤ 710 := by exact_mod_cast Nat.lt_succ_iff.mp hx
  have hyq : (y : ℚ) ≤ 399 := by exact_mod_cast Nat.lt_succ_iff.mp hy
  refine ⟨?_, ?_, ?_, ?_, ?_, ?_⟩
  · have : (0 : ℚ) ≤ (x : ℚ) + rv := by positivity
    norm_num
    positivity
  · norm_num
    rw [div_lt_div_iff₀ (by norm_num) (by norm_num)]
    linarith
  · intro hxlast
    have hxq' : (x : ℚ) ≤ 709 := by
      have : x ≤ 709 := by omega
      exact_mod_cast this
    norm_num
    rw [div_le_one (by norm_num)]
    linarith
  · norm_num
    positivity
  · norm_num
    rw [div_lt_div_iff₀ (by norm_num) (by norm_num)]
    linarith
  · intro hylast
    have hyq' : (y : ℚ) ≤ 398 := by
      have : y ≤ 398 := by omega
      exact_mod_cast this
    norm_num
    rw [div_le_one (by norm_num)]
    linarith

/-- Witness for C7 at a concrete input: the first loop coordinate and a zero
random draw. -/
theorem sampleUV_bounds_witness :
    0 < IMG_WIDTH ∧ 0 < IMG_HEIGHT ∧ (0 : ℚ) ≤ 0 ∧ (0 : ℚ) < 1 ∧
    (0 ≤ (sampleUV 0 0 0).1 ∧
     (sampleUV 0 0 0).1 < (IMG_WIDTH : ℚ) / ((IMG_WIDTH : ℚ) - 1) ∧
     (0 + 1 < IMG_WIDTH → (sampleUV 0 0 0).1 ≤ 1) ∧
     0 ≤ (sampleUV 0 0 0).2 ∧
     (sampleUV 0 0 0).2 < (IMG_HEIGHT : ℚ) / ((IMG_HEIGHT : ℚ) - 1) ∧
     (0 + 1 < IMG_HEIGHT → (sampleUV 0 0 0).2 ≤ 1)) :=
  ⟨by rw [IMG_WIDTH_eq]; omega, by rw [IMG_HEIGHT]; omega, le_refl 0,
    by norm_num,
    sampleUV_bounds 0 0 0 (by rw [IMG_WIDTH_eq]; omega)
      (by rw [IMG_HEIGHT]; omega) (le_refl 0) (by norm_num)⟩

/-- Writing a row never changes entries of other rows. -/
theorem foldl_insert_get_ne_row (f : ℕ → ℕ → Pixel) (y row : ℕ) :
    ∀ (l : List ℕ) (img : Image) (x' row' : ℕ), row' ≠ row →
    (l.foldl (fun im x => im.insert_pixel_at x row (f x y)) img).get x' row' =
      img.get x' row' := by
  intro l
  induction l with
  | nil => intro img x' row' _; rfl
  | cons a l ih =>
    intro img x' row' hne
    rw [List.foldl_cons, ih _ x' row' hne]
    simp [Image.get, Image.insert_pixel_at, hne]

/-- Writing a row never changes columns the row loop does not visit. -/
theorem foldl_insert_get_notin (f : ℕ → ℕ → Pixel) (y row : ℕ) :
    ∀ (l : List ℕ) (img : Image) (x' : ℕ), x' ∉ l →
    (l.foldl (fun im x => im.insert_pixel_at x row (f x y)) img).get x' row =
      img.get x' row := by
  intro l
  induction l with
  | nil => intro img x' _; rfl
  | cons a l ih =>
    intro img x' hnotin
    have hne : x' ≠ a := fun h => hnotin (h ▸ List.mem_cons_self a l)
    have hrest : x' ∉ l := fun h => hnotin (List.mem_cons_of_mem a h)
    rw [List.foldl_cons, ih _ x' hrest]
    simp [Image.get, Image.insert_pixel_at, hne]

/-- After the column loop, every visited column of the row holds the computed
pixel. -/
theorem foldl_insert_get_in (f : ℕ → ℕ → Pixel) (y row : ℕ) :
    ∀ (l : List ℕ) (img : Image) (x' : ℕ), x' ∈ l →
    (l.foldl (fun im x => im.insert_pixel_at x row (f x y)) img).get x' row =
      f x' y := by
  intro l
  induction l with
  | nil => intro img x' h; exact absurd h (List.not_mem_nil x')
  | cons a l ih =>
    intro img x' hmem
    by_cases hin : x' ∈ l
    · rw [List.foldl_cons, ih _ x' hin]
    · have hxa : x' = a := by
        rcases List.mem_cons.mp hmem with h | h
        · exact h
        · exact absurd h hin
      subst hxa
      rw [List.foldl_cons, foldl_insert_get_notin f y row l _ x' hin]
      simp [Image.get, Image.insert_pixel_at]

/-- The outer row loop never changes rows it does not target. -/
theorem foldl_writeRow_get_ne (f : ℕ → ℕ → Pixel) (w h : ℕ) :
    ∀ (ys : List ℕ) (img : Image) (x' row' : ℕ),
    (∀ y' ∈ ys, h - y' - 1 ≠ row') →
    ((ys.foldl (fun img y => writeRow f w (h - y - 1) y img) img).get x'
      row') = img.get x' row' := by
  intro ys
  induction ys with
  | nil => intro img x' row' _; rfl
  | cons a ys ih =>
    intro img x' row' hmiss
    rw [List.foldl_cons, ih _ x' row'
      (fun y' hy' => hmiss y' (List.mem_cons_of_mem a hy'))]
    rw [writeRow]
    exact foldl_insert_get_ne_row f a (h - a - 1) (List.range w) img x' row'
      (Ne.symm (hmiss a (List.mem_cons_self a ys)))

/-- After the outer loop, row `h - y - 1` at a visited column `x < w` holds
the pixel computed for loop coordinates `(x, y)`. -/
theorem foldl_writeRow_get (f : ℕ → ℕ → Pixel) (w h : ℕ) :
    ∀ (ys : List ℕ) (img : Image) (x y : ℕ), x < w → y ∈ ys →
    (∀ y' ∈ ys, y' < h) → ys.Nodup →
    ((ys.foldl (fun img y => writeRow f w (h - y - 1) y img) img).get x
      (h - y - 1)) = f x y := by
  intro ys
  induction ys with
  | nil => intro img x y _ h _ _; exact absurd h (List.not_mem_nil y)
  | cons a ys ih =>
    intro img x y hx hmem hbound hnodup
    by_cases hin : y ∈ ys
    · rw [List.foldl_cons]
      exact ih _ x y hx hin (fun y' hy' => hbound y' (List.mem_cons_of_mem a hy'))
        (List.Nodup.of_cons hnodup)
    · have hya : y = a := by
        rcases List.mem_cons.mp hmem with h | h
        · exact h
        · exact absurd h hin
      subst hya
      have hanotin : y ∉ ys := (List.nodup_cons.mp hnodup).1
      have hmiss : ∀ y' ∈ ys, h - y' - 1 ≠ h - y - 1 := by
        intro y' hy' heq
        have h1 : y' < h := hbound y' (List.mem_cons_of_mem y hy')
        have h2 : y < h := hbound y (List.mem_cons_self y ys)
        have : y' = y := by omega
        exact hanotin (this ▸ hy')
      rw [List.foldl_cons,
        foldl_writeRow_get_ne f w h ys _ x (h - y - 1) hmiss, writeRow]
      exact foldl_insert_get_in f y (h - y - 1) (List.range w) img x
        (List.mem_range.mpr hx)

/-- C8: the driver writes the pixel computed for loop coordinates `(x, y)` to
image row `IMG_HEIGHT - 1 - y` at column `x`; consequently stored row `0`
holds the pixels of loop row `y = IMG_HEIGHT - 1`, which is the row whose
sample coordinate `v` is largest, i.e. the top of the rendered output. -/
theorem renderImage_flips_y (f : ℕ → ℕ → Pixel) (x y : ℕ)
    (hx : x < IMG_WIDTH) (hy : y < IMG_HEIGHT) :
    (renderImage IMG_HEIGHT IMG_WIDTH f).get x (IMG_HEIGHT - 1 - y) = f x y ∧
    (renderImage IMG_HEIGHT IMG_WIDTH f).get x 0 = f x (IMG_HEIGHT - 1) ∧
    (∀ rv : ℚ, 0 ≤ rv →
      (sampleUV x y rv).2 ≤ (sampleUV x (IMG_HEIGHT - 1) rv).2) := by
  have hgen : ∀ y', y' < IMG_HEIGHT →
      (renderImage IMG_HEIGHT IMG_WIDTH f).get x (IMG_HEIGHT - y' - 1) =
        f x y' := by
    intro y' hy'
    rw [renderImage]
    exact foldl_writeRow_get f IMG_WIDTH IMG_HEIGHT (List.range IMG_HEIGHT)
      Image.new x y' hx (List.mem_range.mpr hy')
      (fun a ha => List.mem_range.mp ha) (List.nodup_range _)
  refine ⟨?_, ?_, ?_⟩
  · have harith : IMG_HEIGHT - 1 - y = IMG_HEIGHT - y - 1 := by omega
    rw [harith]
    exact hgen y hy
  · have hlast : IMG_HEIGHT - 1 < IMG_HEIGHT := by rw [IMG_HEIGHT]; omega
    have harith : (0 : ℕ) = IMG_HEIGHT - (IMG_HEIGHT - 1) - 1 := by
      rw [IMG_HEIGHT]
    rw [harith]
    exact hgen (IMG_HEIGHT - 1) hlast
  · intro rv hrv
    have hyq : (y : ℚ) ≤ 399 := by
      have : y ≤ 399 := by
        have := hy
        rw [IMG_HEIGHT] at this
        omega
      exact_mod_cast this
    rw [sampleUV, sampleUV, IMG_HEIGHT]
    norm_num
    rw [div_le_div_iff_of_pos_right (by norm_num : (0 : ℚ) < 399)]
    linarith

/-- A trivial per-pixel computation used by the concrete image witness. -/
def blackPx : ℕ → ℕ → Pixel := fun _ _ => Pixel.black

/-- Witness for C8 at a concrete input: the first loop coordinate of the
driver and the constant-black pixel computation. -/
theorem renderImage_flips_y_witness :
    0 < IMG_WIDTH ∧ 0 < IMG_HEIGHT ∧
    ((renderImage IMG_HEIGHT IMG_WIDTH blackPx).get 0 (IMG_HEIGHT - 1 - 0) =
      blackPx 0 0 ∧
    (renderImage IMG_HEIGHT IMG_WIDTH blackPx).get 0 0 =
      blackPx 0 (IMG_HEIGHT - 1) ∧
    (∀ rv : ℚ, 0 ≤ rv →
      (sampleUV 0 0 rv).2 ≤ (sampleUV 0 (IMG_HEIGHT - 1) rv).2)) :=
  ⟨by rw [IMG_WIDTH_eq]; omega, by rw [IMG_HEIGHT]; omega,
    renderImage_flips_y blackPx 0 0 (by rw [IMG_WIDTH_eq]; omega)
      (by rw [IMG_HEIGHT]; omega)⟩

/-- Appending a color to a running vector sum from the left. -/
theorem vec3_foldl_eq (l : List Vec3) :
    ∀ acc : Vec3, l.foldl Vec3.add acc = Vec3.add acc (vecSum l) := by
  induction l with
  | nil =>
    intro acc
    cases acc
    simp [vecSum, Vec3.add]
  | cons a l ih =>
    intro acc
    rw [List.foldl_cons, ih]
    simp only [vecSum, List.foldr_cons, Vec3.add, Vec3.mk.injEq]
    exact ⟨add_assoc _ _ _, add_assoc _ _ _, add_assoc _ _ _⟩

/-- Adding the zero vector on the left is the identity. -/
theorem vec3_zero_add (v : Vec3) : Vec3.add ⟨0, 0, 0⟩ v = v := by
  cases v
  simp [Vec3.add]

/-- C6: for every pixel `(x, y)` and every list of random draws of the sample
count, the driver's pre-gamma color is the arithmetic mean of the traced
sample colors — their component-wise sum `vecSum` divided by the sample
count — and the stored pixel applies `sqrt(color/255) * 256` component-wise
to that mean before the byte conversion of `Pixel.from_vec3`. -/
theorem renderPixel_mean_gamma (sqrtF : ℚ → ℚ) (mats : ℕ → Material)
    (world : List Hittable) (cam : Camera) (x y : ℕ) (rands : List ℚ)
    (hlen : rands.length = SAMPLES_PER_PIXEL) :
    renderPixel sqrtF mats world cam x y rands =
      Pixel.from_vec3
        (((((vecSum (sampleColors mats world cam x y rands)).div
          ((rands.length : ℕ) : ℚ)).div 255).mapF sqrtF).mul 256) := by
  have h0 : renderPixel sqrtF mats world cam x y rands =
      Pixel.from_vec3
        (Vec3.mul
          (Vec3.mapF sqrtF
            (Vec3.div
              (Vec3.div
                (List.foldl Vec3.add ⟨0, 0, 0⟩
                  (List.map
                    (fun pixel =>
                      (⟨(pixel.r : ℚ), (pixel.g : ℚ),
                        (pixel.b : ℚ)⟩ : Vec3))
                    (List.map (fun ray => trace_ray mats world ray MAX_DEPTH)
                      (List.map (fun uv => cam.get_ray uv.1 uv.2)
                        (List.map (fun rv => sampleUV x y rv) rands)))))
                ((SAMPLES_PER_PIXEL : ℕ) : ℚ))
              255))
          256) := rfl
  rw [h0, List.map_map, List.map_map, List.map_map, vec3_foldl_eq,
    vec3_zero_add, ← hlen]
  rfl

/-- The camera of `main`: origin at the world origin, viewport height `2`,
viewport width `VP_HEIGHT * ASPECT_RATIO = 32/9` and focal length `1`. -/
def cam0 : Camera := Camera.new ⟨0, 0, 0⟩ 2 (32/9) 1

/-- One hundred identical random draws of `1/2`, matching the sample count of
`main`. -/
def rands100 : List ℚ := List.replicate 100 (1/2)

/-- Witness for C6 at a concrete input: the driver pixel `(0, 0)` sampled
with one hundred draws of `1/2` against the empty world. -/
theorem renderPixel_mean_gamma_witness :
    rands100.length = SAMPLES_PER_PIXEL ∧
    renderPixel id mats0 [] cam0 0 0 rands100 =
      Pixel.from_vec3
        (((((vecSum (sampleColors mats0 [] cam0 0 0 rands100)).div
          ((rands100.length : ℕ) : ℚ)).div 255).mapF id).mul 256) :=
  ⟨by simp [rands100, SAMPLES_PER_PIXEL],
    renderPixel_mean_gamma id mats0 [] cam0 0 0 rands100
      (by simp [rands100, SAMPLES_PER_PIXEL])⟩

/-- A root is accepted exactly when its parameter exceeds `t_min` and lies
strictly below the (possibly infinite) upper bound. -/
theorem validRoot_true_iff (tmin : ℚ) (tmax : Option ℚ) (rc : HitRecord) :
    validRoot tmin tmax rc = true ↔
      tmin < rc.t ∧ ∀ m, tmax = some m → rc.t < m := by
  cases tmax <;> simp [validRoot, t_below]

/-- Folding `bestOf` from a starting candidate yields a minimal candidate
among the start and the list. -/
theorem foldl_bestOf_some (l : List HitRecord) :
    ∀ b : HitRecord,
    ∃ tr, l.foldl bestOf (some b) = some tr ∧ (tr = b ∨ tr ∈ l) ∧
      tr.t ≤ b.t ∧ ∀ rc ∈ l, tr.t ≤ rc.t := by
  induction l with
  | nil =>
    intro b
    exact ⟨b, rfl, Or.inl rfl, le_refl _, by simp⟩
  | cons a l ih =>
    intro b
    rw [List.foldl_cons]
    by_cases hab : a.t < b.t
    · have hred : bestOf (some b) a = some a := by simp [bestOf, hab]
      rw [hred]
      obtain ⟨tr, h1, h2, h3, h4⟩ := ih a
      refine ⟨tr, h1, ?_, le_trans h3 (le_of_lt hab), ?_⟩
      · rcases h2 with h | h
        · exact Or.inr (h ▸ List.mem_cons_self a l)
        · exact Or.inr (List.mem_cons_of_mem a h)
      · intro rc hrc
        rcases List.mem_cons.mp hrc with h | h
        · exact h ▸ h3
        · exact h4 rc h
    · have hred : bestOf (some b) a = some b := by simp [bestOf, hab]
      rw [hred]
      obtain ⟨tr, h1, h2, h3, h4⟩ := ih b
      have hba : b.t ≤ a.t := le_of_not_lt hab
      refine ⟨tr, h1, ?_, h3, ?_⟩
      · rcases h2 with h | h
        · exact Or.inl h
        · exact Or.inr (List.mem_cons_of_mem a h)
      · intro rc hrc
        rcases List.mem_cons.mp hrc with h | h
        · exact h ▸ le_trans h3 hba
        · exact h4 rc h

/-- `hitRoots` either rejects every root, or returns a member root that is
accepted and minimal among the accepted roots. -/
theorem hitRoots_cases (rs : List HitRecord) (tmin : ℚ) (tmax : Option ℚ) :
    (hitRoots rs tmin tmax = none ∧
      ∀ rc ∈ rs, ¬ (validRoot tmin tmax rc = true)) ∨
    (∃ tr, hitRoots rs tmin tmax = some tr ∧ tr ∈ rs ∧
      validRoot tmin tmax tr = true ∧
      ∀ rc ∈ rs, validRoot tmin tmax rc = true → tr.t ≤ rc.t) := by
  rcases hl : rs.filter (validRoot tmin tmax) with _ | ⟨a, l'⟩
  · left
    constructor
    · rw [hitRoots, hl]
      rfl
    · intro rc hrc hvalid
      have : rc ∈ rs.filter (validRoot tmin tmax) :=
        List.mem_filter.mpr ⟨hrc, hvalid⟩
      rw [hl] at this
      exact absurd this (List.not_mem_nil rc)
  · right
    have hfold : hitRoots rs tmin tmax = l'.foldl bestOf (some a) := by
      rw [hitRoots, hl, List.foldl_cons]
      rfl
    obtain ⟨tr, h1, h2, h3, h4⟩ := foldl_bestOf_some l' a
    have htr_filter : tr ∈ rs.filter (validRoot tmin tmax) := by
      rw [hl]
      rcases h2 with h | h
      · exact h ▸ List.mem_cons_self a l'
      · exact List.mem_cons_of_mem a h
    obtain ⟨htr_mem, htr_valid⟩ := List.mem_filter.mp htr_filter
    refine ⟨tr, hfold.trans h1, htr_mem, htr_valid, ?_⟩
    intro rc hrc hvalid
    have hrcf : rc ∈ rs.filter (validRoot tmin tmax) :=
      List.mem_filter.mpr ⟨hrc, hvalid⟩
    rw [hl] at hrcf
    rcases List.mem_cons.mp hrcf with h | h
    · exact h ▸ h3
    · exact h4 rc h

/-- Invariant of the nearest-hit scan: starting from a current best record
(whose parameter, if any, exceeds the epsilon and equals the current upper
bound), the scan over root-list objects returns `none` exactly when there was
no current best and no acceptable root, and otherwise returns a record with
parameter above the epsilon that improves on the current best and is minimal
among all acceptable roots of the scanned objects. -/
theorem scanLoop_inv (r : Ray) :
    ∀ (rss : List (List HitRecord)) (best : Option HitRecord),
    (∀ b, best = some b → (1/1000 : ℚ) < b.t) →
    (((scanLoop r (rss.map hittableOfRoots) (Option.map HitRecord.t best)
        best).2 = none →
      best = none ∧ ∀ rc ∈ rss.flatten, ¬ ((1/1000 : ℚ) < rc.t)) ∧
    (∀ res, (scanLoop r (rss.map hittableOfRoots)
        (Option.map HitRecord.t best) best).2 = some res →
      (1/1000 : ℚ) < res.t ∧
      (res ∈ rss.flatten ∨ best = some res) ∧
      (∀ b, best = some b → res.t ≤ b.t) ∧
      (∀ rc ∈ rss.flatten, (1/1000 : ℚ) < rc.t → res.t ≤ rc.t))) := by
  intro rss
  induction rss with
  | nil =>
    intro best hbest
    constructor
    · intro hnone
      simp only [List.map_nil, scanLoop] at hnone
      exact ⟨hnone, by simp⟩
    · intro res hres
      simp only [List.map_nil, scanLoop] at hres
      refine ⟨hbest res hres, Or.inr hres, ?_, by simp⟩
      intro b hb
      rw [hres] at hb
      cases hb
      exact le_refl _
  | cons rs rss ih =>
    intro best hbest
    have hstep : scanLoop r ((rs :: rss).map hittableOfRoots)
        (Option.map HitRecord.t best) best =
      match hitRoots rs (1/1000) (Option.map HitRecord.t best) with
      | some temp_rec =>
          scanLoop r (rss.map hittableOfRoots) (some temp_rec.t)
            (some temp_rec)
      | none =>
          scanLoop r (rss.map hittableOfRoots) (Option.map HitRecord.t best)
            best := rfl
    rcases hitRoots_cases rs (1/1000) (Option.map HitRecord.t best) with
      ⟨hnone, hall⟩ | ⟨tr, hsome, htr_mem, htr_valid, htr_min⟩
    · -- the object contributes nothing: the accumulator is kept
      rw [hstep, hnone]
      have hrs_reject : ∀ rc ∈ rs, (1/1000 : ℚ) < rc.t →
          ∃ b, best = some b ∧ b.t ≤ rc.t := by
        intro rc hrc hvt
        have hnv := hall rc hrc
        rw [validRoot_true_iff] at hnv
        push_neg at hnv
        obtain ⟨m, hm, hge⟩ := hnv hvt
        cases best with
        | none => cases hm
        | some b =>
          refine ⟨b, rfl, ?_⟩
          have hm2 : (some b.t : Option ℚ) = some m := hm
          cases hm2
          exact hge
      obtain ⟨ihA, ihB⟩ := ih best hbest
      constructor
      · intro hres
        obtain ⟨hbn, hnov⟩ := ihA hres
        refine ⟨hbn, ?_⟩
        intro rc hrc
        rw [List.flatten_cons] at hrc
        rcases List.mem_append.mp hrc with h | h
        · intro hvt
          obtain ⟨b, hb, _⟩ := hrs_reject rc h hvt
          rw [hbn] at hb
          cases hb
        · exact hnov rc h
      · intro res hres
        obtain ⟨h1, h2, h3, h4⟩ := ihB res hres
        refine ⟨h1, ?_, h3, ?_⟩
        · rcases h2 with h | h
          · refine Or.inl ?_
            rw [List.flatten_cons]
            exact List.mem_append.mpr (Or.inr h)
          · exact Or.inr h
        · intro rc hrc hvt
          rw [List.flatten_cons] at hrc
          rcases List.mem_append.mp hrc with h | h
          · obtain ⟨b, hb, hble⟩ := hrs_reject rc h hvt
            exact le_trans (h3 b hb) hble
          · exact h4 rc h hvt
    · -- the object contributes a new best record `tr`
      rw [hstep, hsome]
      have htr_ok := (validRoot_true_iff _ _ _).mp htr_valid
      have htr_eps : (1/1000 : ℚ) < tr.t := htr_ok.1
      have hbest' : ∀ b, (some tr : Option HitRecord) = some b →
          (1/1000 : ℚ) < b.t := by
        intro b hb
        cases hb
        exact htr_eps
      obtain ⟨ihA, ihB⟩ := ih (some tr) hbest'
      constructor
      · intro hres
        obtain ⟨hcontra, _⟩ := ihA hres
        cases hcontra
      · intro res hres
        obtain ⟨h1, h2, h3, h4⟩ := ihB res hres
        have hres_le_tr : res.t ≤ tr.t := h3 tr rfl
        have hbelow_best : ∀ b, best = some b → res.t ≤ b.t := by
          intro b hb
          have htrb : tr.t < b.t := htr_ok.2 b.t (by rw [hb]; rfl)
          exact le_of_lt (lt_of_le_of_lt hres_le_tr htrb)
        refine ⟨h1, ?_, hbelow_best, ?_⟩
        · rcases h2 with h | h
          · refine Or.inl ?_
            rw [List.flatten_cons]
            exact List.mem_append.mpr (Or.inr h)
          · have hres_eq : tr = res := Option.some.inj h
            refine Or.inl ?_
            rw [List.flatten_cons]
            exact List.mem_append.mpr (Or.inl (hres_eq ▸ htr_mem))
        · intro rc hrc hvt
          rw [List.flatten_cons] at hrc
          rcases List.mem_append.mp hrc with h | h
          · by_cases hv : validRoot (1/1000) (Option.map HitRecord.t best)
                rc = true
            · exact le_trans hres_le_tr (htr_min rc h hv)
            · rw [validRoot_true_iff] at hv
              push_neg at hv
              obtain ⟨m, hm, hge⟩ := hv hvt
              cases best with
              | none => cases hm
              | some b =>
                have hm2 : (some b.t : Option ℚ) = some m := hm
                cases hm2
                exact le_trans (hbelow_best b rfl) hge
          · exact h4 rc h hvt

/-- The nearest-hit scan of `trace_ray`, specialized to a world of root-list
objects, starting from `t_closest_so_far = +infinity` and no record. -/
def scanOnRoots (r : Ray) (rss : List (List HitRecord)) : Option HitRecord :=
  (scanLoop r (rss.map hittableOfRoots) none none).2

/-- The scan selects a globally minimal hit: it returns `none` exactly when
no object root lies in `(0.001, +infinity)`, and otherwise returns one of the
roots, inside the interval, whose parameter `t` is smallest among all object
roots inside the interval. -/
def selectsGlobalMin (r : Ray) (rss : List (List HitRecord)) : Prop :=
  (scanOnRoots r rss = none →
    ∀ rc ∈ rss.flatten, ¬ ((1/1000 : ℚ) < rc.t)) ∧
  (∀ res, scanOnRoots r rss = some res →
    res ∈ rss.flatten ∧ (1/1000 : ℚ) < res.t ∧
    ∀ rc ∈ rss.flatten, (1/1000 : ℚ) < rc.t → res.t ≤ rc.t)

/-- The scan of `trace_ray` satisfies the global-minimality property. -/
theorem scanOnRoots_spec (r : Ray) (rss : List (List HitRecord)) :
    selectsGlobalMin r rss := by
  obtain ⟨hA, hB⟩ := scanLoop_inv r rss none (by intro b hb; cases hb)
  constructor
  · intro hnone
    exact (hA hnone).2
  · intro res hres
    obtain ⟨h1, h2, _, h4⟩ := hB res hres
    rcases h2 with h | h
    · exact ⟨h, h1, h4⟩
    · cases h

/-- A permutation of the outer list of root lists permutes the flattened
roots. -/
theorem perm_flatten {l₁ l₂ : List (List HitRecord)} (h : l₁.Perm l₂) :
    l₁.flatten.Perm l₂.flatten := by
  induction h with
  | nil => exact List.Perm.refl _
  | cons x _ ih =>
    rw [List.flatten_cons, List.flatten_cons]
    exact ih.append_left x
  | swap x y l =>
    rw [List.flatten_cons, List.flatten_cons, List.flatten_cons,
      List.flatten_cons, ← List.append_assoc, ← List.append_assoc]
    exact List.perm_append_comm.append_right _
  | trans _ _ ih1 ih2 => exact ih1.trans ih2

/-- C2 (amended): for every ray and every pair of worlds that are
permutations of each other, the linear scan of `trace_ray` selects a hit
whose parameter `t` is globally smallest among all object hits in
`(0.001, +infinity)` (and returns `none` exactly when there is none); the
selected parameter `t` is the same for every permutation of the scan order;
and the selected hit record itself is permutation-invariant provided no two
distinct accepted hits share the same parameter (on ties the scan keeps the
earlier object, so only `t` — not the full record — is order-independent). -/
theorem scan_selects_global_min_amended (r : Ray)
    (rss rss' : List (List HitRecord)) (hperm : rss.Perm rss') :
    selectsGlobalMin r rss ∧
    Option.map HitRecord.t (scanOnRoots r rss) =
      Option.map HitRecord.t (scanOnRoots r rss') ∧
    ((∀ a ∈ rss.flatten, ∀ b ∈ rss.flatten,
        (1/1000 : ℚ) < a.t → (1/1000 : ℚ) < b.t → a.t = b.t → a = b) →
      scanOnRoots r rss = scanOnRoots r rss') := by
  have h1 := scanOnRoots_spec r rss
  have h2 := scanOnRoots_spec r rss'
  have hflat := perm_flatten hperm
  have hmapt : Option.map HitRecord.t (scanOnRoots r rss) =
      Option.map HitRecord.t (scanOnRoots r rss') := by
    rcases e1 : scanOnRoots r rss with _ | res
    · rcases e2 : scanOnRoots r rss' with _ | res'
      · rfl
      · obtain ⟨hmem', hval', _⟩ := h2.2 res' e2
        have hin : res' ∈ rss.flatten := hflat.mem_iff.mpr hmem'
        exact absurd hval' (h1.1 e1 res' hin)
    · rcases e2 : scanOnRoots r rss' with _ | res'
      · obtain ⟨hmem, hval, _⟩ := h1.2 res e1
        have hin : res ∈ rss'.flatten := hflat.mem_iff.mp hmem
        exact absurd hval (h2.1 e2 res hin)
      · obtain ⟨hmem, hval, hmin⟩ := h1.2 res e1
        obtain ⟨hmem', hval', hmin'⟩ := h2.2 res' e2
        have hle : res.t ≤ res'.t :=
          hmin res' (hflat.mem_iff.mpr hmem') hval'
        have hge : res'.t ≤ res.t :=
          hmin' res (hflat.mem_iff.mp hmem) hval
        show (some res.t : Option ℚ) = some res'.t
        exact congrArg some (le_antisymm hle hge)
  refine ⟨h1, hmapt, ?_⟩
  intro hinj
  rcases e1 : scanOnRoots r rss with _ | res
  · rcases e2 : scanOnRoots r rss' with _ | res'
    · rfl
    · rw [e1, e2] at hmapt
      cases hmapt
  · rcases e2 : scanOnRoots r rss' with _ | res'
    · rw [e1, e2] at hmapt
      cases hmapt
    · rw [e1, e2] at hmapt
      have hmapt2 : (some res.t : Option ℚ) = some res'.t := hmapt
      have hteq : res.t = res'.t := Option.some.inj hmapt2
      obtain ⟨hmem, hval, _⟩ := h1.2 res e1
      obtain ⟨hmem', hval', _⟩ := h2.2 res' e2
      have hmem'' : res' ∈ rss.flatten := hflat.mem_iff.mpr hmem'
      have heq : res = res' := hinj res hmem res' hmem'' hval hval' hteq
      rw [heq]

/-- Witness for C2 at a concrete input: two one-root objects at `t = 2` and
`t = 1` scanned in either order. -/
theorem scan_selects_global_min_witness :
    (([[recT2], [recT1a]] : List (List HitRecord)).Perm
      [[recT1a], [recT2]]) ∧
    (selectsGlobalMin ray0 [[recT2], [recT1a]] ∧
     Option.map HitRecord.t (scanOnRoots ray0 [[recT2], [recT1a]]) =
       Option.map HitRecord.t (scanOnRoots ray0 [[recT1a], [recT2]]) ∧
     ((∀ a ∈ ([[recT2], [recT1a]] : List (List HitRecord)).flatten,
        ∀ b ∈ ([[recT2], [recT1a]] : List (List HitRecord)).flatten,
        (1/1000 : ℚ) < a.t → (1/1000 : ℚ) < b.t → a.t = b.t → a = b) →
       scanOnRoots ray0 [[recT2], [recT1a]] =
         scanOnRoots ray0 [[recT1a], [recT2]])) :=
  ⟨List.Perm.swap _ _ _,
    scan_selects_global_min_amended ray0 [[recT2], [recT1a]]
      [[recT1a], [recT2]] (List.Perm.swap _ _ _)⟩

/-- C2 counterexample: with two distinct objects hitting at the same
parameter `t = 1` but carrying different materials, the scan returns the
record of whichever object comes first, so the selected hit is not the same
for every permutation of the scan order. -/
theorem scan_order_dependence_counterexample :
    (([[recT1a], [recT1b]] : List (List HitRecord)).Perm
      [[recT1b], [recT1a]]) ∧
    scanOnRoots ray0 [[recT1a], [recT1b]] ≠
      scanOnRoots ray0 [[recT1b], [recT1a]] := by
  constructor
  · exact List.Perm.swap _ _ _
  · have h1 : scanOnRoots ray0 [[recT1a], [recT1b]] = some recT1a := by
      norm_num [scanOnRoots, scanLoop, hittableOfRoots, hitRoots,
        List.filter, validRoot, t_below, recT1a, recT1b, bestOf]
    have h2 : scanOnRoots ray0 [[recT1b], [recT1a]] = some recT1b := by
      norm_num [scanOnRoots, scanLoop, hittableOfRoots, hitRoots,
        List.filter, validRoot, t_below, recT1a, recT1b, bestOf]
    rw [h1, h2]
    simp [recT1a, recT1b]
